import Mathlib

/-!
Verification of the `firstadvice` voice-agent repository.

Strings of the Python source are modelled as `List Char`.  The regular
expressions of `core/processors.py` are modelled by explicit scanners that
reproduce the leftmost, greedy, non-overlapping semantics of `re.sub` and
`re.findall` for the three concrete patterns used by the code.  Python's
`\s` class is modelled by the six ASCII whitespace characters; `\d` by the
ASCII decimal digits; `str.lower` by `Char.toLower` (the inputs of interest
are ASCII).
-/

abbrev Str := List Char

/-- Python whitespace, for `str.strip` and the regex class of blanks
(ASCII fragment). -/
def pyIsSpace (c : Char) : Bool :=
  c = ' ' || c = '\t' || c = '\n' || c = '\r' || c = '\x0b' || c = '\x0c'

/-- Python `str.lstrip()`. -/
def lstrip (l : Str) : Str := l.dropWhile pyIsSpace

/-- Python `str.rstrip()`. -/
def rstrip (l : Str) : Str := (l.reverse.dropWhile pyIsSpace).reverse

/-- Python `str.strip()`. -/
def strip (l : Str) : Str := lstrip (rstrip l)

/-- Python `str.lower()` (ASCII fragment). -/
def lowerStr (l : Str) : Str := l.map Char.toLower

/-- Python substring test `needle in hay`. -/
def isSubstring (needle hay : Str) : Bool :=
  (List.range (hay.length + 1)).any fun i => needle.isPrefixOf (hay.drop i)

/-- Strip a literal from the front of the input, as a regex literal does. -/
def dropLit (pat l : Str) : Option Str :=
  if pat.isPrefixOf l then some (l.drop pat.length) else none

/-- The literal opening of a task marker, `[TASK_DONE:`. -/
def taskDoneLit : Str := "[TASK_DONE:".toList

/-- Python `int(...)` on a string of decimal digits. -/
def digitsToNat (ds : Str) : Nat :=
  ds.foldl (fun n c => 10 * n + (c.toNat - 48)) 0

/-- Match of the core regex `\[TASK_DONE:(\d+)\]` at the current position:
returns the digit group and the rest of the input after the match.
Backtracking is irrelevant for this pattern: `\d+` is greedy and a shorter
digit run would leave a digit, never `]`, as the next character. -/
def matchCore (l : Str) : Option (Str × Str) :=
  match dropLit taskDoneLit l with
  | none => none
  | some l2 =>
    let ds := l2.takeWhile Char.isDigit
    if ds.isEmpty then none
    else
      match l2.dropWhile Char.isDigit with
      | ']' :: r => some (ds, r)
      | _ => none

/-- Match of `\s*\[TASK_DONE:\d+\]\s*` (`TASK_DONE_CLEANUP_PATTERN`) at the
current position; returns the rest after the greedy match. -/
def matchCleanup (l : Str) : Option Str :=
  match matchCore (lstrip l) with
  | some (_, r) => some (lstrip r)
  | none => none

/-- Match of `\s*\[TASK_DONE:\d*$` (`TASK_DONE_PARTIAL_PATTERN`) at the
current position.  `$` matches at the end of the input or just before a
final newline, as in Python without `re.MULTILINE`. -/
def matchTailMarker (l : Str) : Option Str :=
  match dropLit taskDoneLit (lstrip l) with
  | none => none
  | some l2 =>
    match l2.dropWhile Char.isDigit with
    | [] => some []
    | ['\n'] => some ['\n']
    | _ => none

theorem dropLit_eq_some {p l r : Str} : dropLit p l = some r ↔ l = p ++ r := by
  unfold dropLit
  by_cases hp : p.isPrefixOf l
  · simp only [hp, if_true, Option.some.injEq]
    obtain ⟨t, ht⟩ := List.isPrefixOf_iff_prefix.mp hp
    constructor
    · intro h
      subst h
      rw [← ht, List.drop_left]
    · intro h
      subst h
      rw [List.drop_left]
  · simp only [hp, if_false]
    constructor
    · intro h
      exact absurd h (by simp)
    · intro h
      subst h
      exact absurd (List.isPrefixOf_iff_prefix.mpr ⟨r, rfl⟩) hp

theorem takeWhile_append_stop {p : Char → Bool} {u : Str} {c : Char} {v : Str}
    (hu : ∀ x ∈ u, p x = true) (hc : p c = false) :
    (u ++ c :: v).takeWhile p = u := by
  induction u with
  | nil => simp [List.takeWhile_cons, hc]
  | cons a t ih =>
    have ha : p a = true := hu a (by simp)
    simp only [List.cons_append, List.takeWhile_cons, ha, if_true]
    rw [ih (fun x hx => hu x (by simp [hx]))]

theorem dropWhile_append_stop {p : Char → Bool} {u : Str} {c : Char} {v : Str}
    (hu : ∀ x ∈ u, p x = true) (hc : p c = false) :
    (u ++ c :: v).dropWhile p = c :: v := by
  induction u with
  | nil => simp [List.dropWhile_cons, hc]
  | cons a t ih =>
    have ha : p a = true := hu a (by simp)
    simp only [List.cons_append, List.dropWhile_cons, ha, if_true]
    exact ih (fun x hx => hu x (by simp [hx]))

/-- Characterization of the core-marker match by an append equation. -/
theorem matchCore_eq_some {l ds r : Str} :
    matchCore l = some (ds, r) ↔
      l = taskDoneLit ++ ds ++ ']' :: r ∧ ds ≠ [] ∧ ∀ c ∈ ds, c.isDigit = true := by
  constructor
  · intro h
    unfold matchCore at h
    cases hd : dropLit taskDoneLit l with
    | none => rw [hd] at h; exact absurd h (by simp)
    | some l2 =>
      rw [hd] at h
      by_cases he : (l2.takeWhile Char.isDigit).isEmpty
      · simp [he] at h
      · simp only [he, if_false, Bool.false_eq_true] at h
        cases hw : l2.dropWhile Char.isDigit with
        | nil => rw [hw] at h; exact absurd h (by simp)
        | cons c w =>
          rw [hw] at h
          by_cases hc : c = ']'
          · subst hc
            simp only [Option.some.injEq, Prod.mk.injEq] at h
            obtain ⟨hds, hr⟩ := h
            have hl : l = taskDoneLit ++ l2 := dropLit_eq_some.mp hd
            have hsplit : l2.takeWhile Char.isDigit ++ l2.dropWhile Char.isDigit = l2 :=
              List.takeWhile_append_dropWhile ..
            refine ⟨?_, ?_, ?_⟩
            · rw [hl, ← hsplit, hds, hw, hr, List.append_assoc]
            · intro hnil
              rw [hnil] at hds
              simp [hds] at he
            · intro x hx
              rw [← hds] at hx
              exact List.mem_takeWhile_imp hx
          · cases c
            simp_all
  · rintro ⟨hl, hne, hdig⟩
    have hd : dropLit taskDoneLit l = some (ds ++ ']' :: r) :=
      dropLit_eq_some.mpr (by rw [hl, List.append_assoc])
    have hnotdig : (']' : Char).isDigit = false := by decide
    unfold matchCore
    rw [hd]
    have ht : (ds ++ ']' :: r).takeWhile Char.isDigit = ds :=
      takeWhile_append_stop hdig hnotdig
    have hw : (ds ++ ']' :: r).dropWhile Char.isDigit = ']' :: r :=
      dropWhile_append_stop hdig hnotdig
    simp only [ht, hw]
    have : ds.isEmpty = false := by
      cases ds with
      | nil => exact absurd rfl hne
      | cons a t => rfl
    simp [this]

theorem matchCore_length {l ds r : Str} (h : matchCore l = some (ds, r)) :
    r.length < l.length := by
  obtain ⟨hl, -, -⟩ := matchCore_eq_some.mp h
  rw [hl]
  simp [taskDoneLit]
  omega

/-- Appending to the input preserves a core-marker match. -/
theorem matchCore_append {a v ds r : Str} (h : matchCore a = some (ds, r)) :
    matchCore (a ++ v) = some (ds, r ++ v) := by
  obtain ⟨hl, hne, hdig⟩ := matchCore_eq_some.mp h
  exact matchCore_eq_some.mpr ⟨by rw [hl]; simp, hne, hdig⟩

theorem matchCore_nil : matchCore [] = none := by decide

theorem matchCore_cons_ne {c : Char} {t : Str} (hc : c ≠ '[') :
    matchCore (c :: t) = none := by
  cases h : matchCore (c :: t) with
  | none => rfl
  | some p =>
    obtain ⟨ds, r⟩ := p
    obtain ⟨hl, -, -⟩ := matchCore_eq_some.mp h
    have : c = '[' := by
      have := congrArg (fun l => l.head?) hl
      simpa [taskDoneLit] using this
    exact absurd this hc

theorem matchTailMarker_cases {l r : Str} (h : matchTailMarker l = some r) :
    r = [] ∨ r = ['\n'] := by
  unfold matchTailMarker at h
  cases hd : dropLit taskDoneLit (lstrip l) with
  | none => simp [hd] at h
  | some l2 =>
    simp only [hd] at h
    cases hw : l2.dropWhile Char.isDigit with
    | nil => simp only [hw] at h; left; injection h with h'; exact h'.symm
    | cons c w =>
      simp only [hw] at h
      cases w with
      | nil =>
        by_cases hc : c = '\n'
        · subst hc; right; simp at h; exact h.symm
        · simp [hc] at h
      | cons d w' => simp at h

theorem length_dropWhile_le' (p : Char → Bool) (l : Str) :
    (l.dropWhile p).length ≤ l.length :=
  (List.dropWhile_suffix p).length_le

theorem matchTailMarker_length {l r : Str} (h : matchTailMarker l = some r) :
    r.length < l.length := by
  unfold matchTailMarker at h
  cases hd : dropLit taskDoneLit (lstrip l) with
  | none => simp [hd] at h
  | some l2 =>
    simp only [hd] at h
    have hl2 : lstrip l = taskDoneLit ++ l2 := dropLit_eq_some.mp hd
    have h1 : (lstrip l).length ≤ l.length := length_dropWhile_le' pyIsSpace l
    have h2 : (lstrip l).length = 11 + l2.length := by
      rw [hl2]; simp [taskDoneLit]; omega
    have h3 : (l2.dropWhile Char.isDigit).length ≤ l2.length :=
      length_dropWhile_le' Char.isDigit l2
    cases hw : l2.dropWhile Char.isDigit with
    | nil => simp only [hw] at h; injection h with h'; subst h'; simp; omega
    | cons c w =>
      simp only [hw] at h
      cases w with
      | nil =>
        by_cases hc : c = '\n'
        · subst hc
          simp at h
          subst h
          rw [hw] at h3
          simp at h3 ⊢
          omega
        · simp [hc] at h
      | cons d w' => simp at h

/-- `TASK_DONE_CLEANUP_PATTERN.sub(' ', ·)`: scan the input left to right,
replacing every greedy match of `\s*\[TASK_DONE:\d+\]\s*` by one space and
continuing after it.  The fuel argument bounds the recursion; one unit per
step suffices because every step consumes at least one character. -/
def subCleanupF : Nat → Str → Str
  | _, [] => []
  | 0, l => l
  | f + 1, c :: t =>
    match matchCleanup (c :: t) with
    | some r => ' ' :: subCleanupF f r
    | none => c :: subCleanupF f t

def subCleanup (l : Str) : Str := subCleanupF l.length l

/-- `TASK_DONE_PARTIAL_PATTERN.sub('', ·)`: removes a trailing
`\s*\[TASK_DONE:\d*` anchored at the end of the input. -/
def subTailMarkerF : Nat → Str → Str
  | _, [] => []
  | 0, l => l
  | f + 1, c :: t =>
    match matchTailMarker (c :: t) with
    | some r => subTailMarkerF f r
    | none => c :: subTailMarkerF f t

def subTailMarker (l : Str) : Str := subTailMarkerF l.length l

/-- `re.sub(r'^\d*\]\s*', '', ·)`: one anchored match at the start of the
input removing leading digits, a closing bracket and following blanks. -/
def subHeadClose (l : Str) : Str :=
  match l.dropWhile Char.isDigit with
  | ']' :: r => lstrip r
  | _ => l

/-- `ResponseProcessor.strip_task_markers` (`new app/core/processors.py`,
lines 44-62): remove complete markers, then a partial marker at the end,
then a partial closing at the start, then strip. -/
def strip_task_markers (l : Str) : Str :=
  strip (subHeadClose (subTailMarker (subCleanup l)))

/-- `VoiceAgentSession._strip_task_markers` from the monolithic
`voice_agent_server.py` (lines 967-975): the same three substitutions, in
the same order, followed by `str.strip`. -/
def legacyStripTaskMarkers (l : Str) : Str :=
  strip (subHeadClose (subTailMarker (subCleanup l)))

/-- `TASK_DONE_PATTERN.findall` + `int`, i.e.
`ResponseProcessor.extract_task_completions`: all non-overlapping matches of
`\[TASK_DONE:(\d+)\]`, left to right, parsed as integers. -/
def extractTaskF : Nat → Str → List Nat
  | _, [] => []
  | 0, _ => []
  | f + 1, c :: t =>
    match matchCore (c :: t) with
    | some (ds, r) => digitsToNat ds :: extractTaskF f r
    | none => extractTaskF f t

def extract_task_completions (l : Str) : List Nat := extractTaskF l.length l

/-! ### Sentence extraction (`ResponseProcessor.extract_complete_sentences`) -/

/-- The set `SENTENCE_ENDINGS`; iteration order is irrelevant because the
loop body only takes maxima. -/
def sentence_endings : Str := ['.', '!', '?', ':', ';']

/-- Python `hay.rfind(pat)` restricted to the found index: the greatest
start index of an occurrence, if any. -/
def rfindIdx (hay pat : Str) : Option Nat :=
  ((List.range (hay.length + 1)).filter fun i => pat.isPrefixOf (hay.drop i)).getLast?

/-- Python `hay.rfind(pat)`: index of the right-most occurrence, `-1` if
none. -/
def rfindSub (hay pat : Str) : Int :=
  match rfindIdx hay pat with
  | some i => i
  | none => -1

/-- `len(buffer) - 1 if buffer.endswith(ending) else -1`. -/
def posAtEnd (b : Str) (e : Char) : Int :=
  match b.getLast? with
  | some c => if c = e then (b.length : Int) - 1 else -1
  | none => -1

/-- The `last_end` loop of `extract_complete_sentences`. -/
def lastEnd (b : Str) : Int :=
  sentence_endings.foldl
    (fun acc e => max (max acc (rfindSub b [e, ' '])) (posAtEnd b e)) (-1)

/-- `ResponseProcessor.extract_complete_sentences` (`processors.py`, lines
65-92). -/
def extract_complete_sentences (b : Str) : Str × Str :=
  let le := lastEnd b
  if le ≥ 0 then (strip (b.take (le.toNat + 1)), lstrip (b.drop (le.toNat + 1)))
  else ([], b)

/-! ### Domain models (`core/models.py`) -/

/-- The `Task` dataclass (named `AgentTask` here because `Task` is taken by
the Lean core library). -/
structure AgentTask where
  id : Int
  description : Str
  completed : Bool
deriving DecidableEq

/-- `ConversationMessage` dataclass. -/
structure ConversationMessage where
  role : Str
  content : Str
deriving DecidableEq

/-- `SessionState` dataclass. -/
structure SessionState where
  conversation_history : List ConversationMessage
  tasks : List AgentTask
  is_processing : Bool
  is_speaking : Bool
  is_interrupted : Bool
  is_audio_playing : Bool
  pending_interrupt_text : Option Str
  pending_user_text : Option Str
  recent_agent_speech : List Str
  last_shown_transcript : Option Str
deriving DecidableEq

/-- The dataclass defaults of `SessionState`. -/
def initialState : SessionState :=
  { conversation_history := []
    tasks := []
    is_processing := false
    is_speaking := false
    is_interrupted := false
    is_audio_playing := false
    pending_interrupt_text := none
    pending_user_text := none
    recent_agent_speech := []
    last_shown_transcript := none }

/-- `SessionState.add_user_message`. -/
def add_user_message (s : SessionState) (content : Str) : SessionState :=
  { s with conversation_history :=
      s.conversation_history ++ [{ role := "user".toList, content := content }] }

/-- `SessionState.add_assistant_message`. -/
def add_assistant_message (s : SessionState) (content : Str) : SessionState :=
  { s with conversation_history :=
      s.conversation_history ++ [{ role := "assistant".toList, content := content }] }

/-- `SessionState.track_agent_speech`: append, then pop the front when the
window exceeds `max_items`. -/
def track_agent_speech (s : SessionState) (text : Str) (maxItems : Nat := 3) :
    SessionState :=
  let r := s.recent_agent_speech ++ [text]
  { s with recent_agent_speech := if maxItems < r.length then r.tail else r }

/-- `SessionState.clear_agent_speech_history`. -/
def clear_agent_speech_history (s : SessionState) : SessionState :=
  { s with recent_agent_speech := [] }

/-- `SessionState.is_echo` (`models.py`, lines 72-79): the incoming text is
lower-cased *and stripped*; each stored sentence is lower-cased; echo when
the text occurs inside a stored sentence or a stored sentence starts with
it. -/
def is_echo (s : SessionState) (text : Str) : Bool :=
  let tl := strip (lowerStr text)
  s.recent_agent_speech.any fun a =>
    let al := lowerStr a
    isSubstring tl al || tl.isPrefixOf al

/-- `SessionState.mark_task_completed` (`models.py`, lines 81-95), modelled
functionally: the returned task (if any) and the updated task list.  The
loop marks the first not-yet-completed task with the requested id and stops
there. -/
def mark_task_completed : List AgentTask → Int → Option AgentTask × List AgentTask
  | [], _ => (none, [])
  | t :: ts, taskId =>
    if t.id = taskId ∧ t.completed = false then
      (some { t with completed := true }, { t with completed := true } :: ts)
    else
      let (r, ts') := mark_task_completed ts taskId
      (r, t :: ts')

/-- `SessionState.reset_processing_state` (`models.py`, lines 97-102). -/
def reset_processing_state (s : SessionState) : SessionState :=
  { s with is_processing := false, is_speaking := false, is_audio_playing := false,
           recent_agent_speech := [] }

/-! ### The session orchestrator (`core/session.py`) -/

/-- A `VoiceAgentSession` as far as the barge-in logic is concerned: its
state plus whether `self._processing_task` exists and is not done. -/
structure Session where
  state : SessionState
  processing_task_alive : Bool
deriving DecidableEq

/-- Observable effects of one call of `_on_partial_transcript`. -/
structure PartialEffects where
  cancelledTask : Bool
  clearedAudio : Bool
  emitted : Option Str
deriving DecidableEq

/-- `VoiceAgentSession._on_partial_transcript` (`session.py`, lines
170-203).  `cancelledTask` records that `self._processing_task.cancel()`
was called, which the code guards by the task being alive. -/
def onPartialTranscript (s : Session) (text : Str) : Session × PartialEffects :=
  if strip text = [] then (s, ⟨false, false, none⟩)
  else if is_echo s.state text then (s, ⟨false, false, none⟩)
  else if s.state.is_interrupted then
    ({ s with state := { s.state with pending_interrupt_text := some text } },
     ⟨false, false, some text⟩)
  else if s.state.is_speaking || s.state.is_audio_playing then
    ({ s with state := { s.state with is_interrupted := true,
                                      pending_interrupt_text := some text } },
     ⟨s.processing_task_alive, true, some text⟩)
  else (s, ⟨false, false, some text⟩)

/-- The state part of `_on_partial_transcript`. -/
def onPartialState (s : SessionState) (text : Str) : SessionState :=
  (onPartialTranscript ⟨s, false⟩ text).1.state

/-- A sequence of partial-transcript events, with the per-event effects. -/
def runPartials (s : Session) : List Str → Session × List PartialEffects
  | [] => (s, [])
  | t :: ts =>
    let (s', e) := onPartialTranscript s t
    let (s'', es) := runPartials s' ts
    (s'', e :: es)

/-- The state mutations of `VoiceAgentSession._on_final_transcript`
(`session.py`, lines 205-255); the spawning of `_process_user_input` is the
separate step `processEntry`. -/
def onFinalState (s : SessionState) (text : Str) : SessionState :=
  if strip text = [] then s
  else if is_echo s text then s
  else if s.is_interrupted then
    { s with is_interrupted := false, pending_interrupt_text := none }
  else if s.is_speaking || s.is_audio_playing then
    { s with is_interrupted := true, pending_interrupt_text := some text,
             is_audio_playing := false }
  else if s.is_processing && !s.is_speaking then
    let merged : Str :=
      match s.pending_user_text with
      | some p => if p = [] then text else p ++ ' ' :: text
      | none => text
    { s with pending_user_text := some merged }
  else s

/-- `VoiceAgentSession.handle_user_speaking_interrupt` (`session.py`, lines
128-131). -/
def clientInterrupt (s : SessionState) : SessionState :=
  { s with is_interrupted := true, is_audio_playing := false }

/-- `VoiceAgentSession.handle_audio_status` (`session.py`, line 126). -/
def handleAudioStatus (s : SessionState) (playing : Bool) : SessionState :=
  { s with is_audio_playing := playing }

/-- Entry of `_process_user_input` (`session.py`, lines 261-265).  Under the
sequential semantics every call site reaches it with
`is_interrupted = false` (lines 218-222, 251-254 and the recursion guard at
line 353). -/
def processEntry (s : SessionState) : SessionState :=
  { s with is_processing := true, is_interrupted := false, pending_user_text := none }

/-- First audio of a processing cycle (`session.py`, lines 308-311 and
323-325): `is_speaking := true`, optionally clearing the echo window. -/
def beginSpeaking (s : SessionState) (clearHistory : Bool) : SessionState :=
  if clearHistory then
    { s with is_speaking := true, recent_agent_speech := [] }
  else
    { s with is_speaking := true }

/-- Marking one task inside the session state. -/
def markTaskState (s : SessionState) (taskId : Int) : SessionState :=
  { s with tasks := (mark_task_completed s.tasks taskId).2 }

/-- `VoiceAgentSession._finalize_response` (`session.py`, lines 396-415):
mark the remaining task completions, strip the markers, tag the text when
the cycle ended interrupted, store it as the assistant message and emit the
same text as the `agent_response` event (the returned string). -/
def finalizeResponse (s : SessionState) (responseText : Str) : SessionState × Str :=
  let s1 := (extract_task_completions responseText).foldl
    (fun st n => markTaskState st (Int.ofNat n)) s
  let cleanResponse := strip_task_markers responseText
  let finalText :=
    if s1.is_interrupted then cleanResponse ++ " [interrupted]".toList
    else cleanResponse
  (add_assistant_message s1 finalText, finalText)

/-- States reachable from the initial `SessionState` through the
orchestrator's operations, each handler taken as one sequential step. -/
inductive Reachable : SessionState → Prop where
  | init : Reachable initialState
  | partialT {s : SessionState} (t : Str) :
      Reachable s → Reachable (onPartialState s t)
  | finalT {s : SessionState} (t : Str) :
      Reachable s → Reachable (onFinalState s t)
  | interruptSignal {s : SessionState} :
      Reachable s → Reachable (clientInterrupt s)
  | audioStatus {s : SessionState} (b : Bool) :
      Reachable s → Reachable (handleAudioStatus s b)
  | entry {s : SessionState} :
      Reachable s → s.is_interrupted = false → Reachable (processEntry s)
  | speak {s : SessionState} (clearHistory : Bool) :
      Reachable s → Reachable (beginSpeaking s clearHistory)
  | userMsg {s : SessionState} (c : Str) :
      Reachable s → Reachable (add_user_message s c)
  | trackSpeech {s : SessionState} (t : Str) :
      Reachable s → Reachable (track_agent_speech s t)
  | taskDone {s : SessionState} (i : Int) :
      Reachable s → Reachable (markTaskState s i)
  | finalize {s : SessionState} (r : Str) :
      Reachable s → Reachable (finalizeResponse s r).1
  | reset {s : SessionState} :
      Reachable s → Reachable (reset_processing_state s)

/-- The echo predicate described by the specification's words alone: both
sides lower-cased, the incoming text *not* stripped.  Used to compare the
spec sentence of C8 against `is_echo`. -/
def echoSpecPred (s : SessionState) (text : Str) : Bool :=
  let tl := lowerStr text
  s.recent_agent_speech.any fun a =>
    let al := lowerStr a
    isSubstring tl al || tl.isPrefixOf al

/-! ### Helper lemmas -/

theorem markTaskState_history (s : SessionState) (i : Int) :
    (markTaskState s i).conversation_history = s.conversation_history := rfl

theorem foldl_markTask_fields (ids : List Nat) (s : SessionState) :
    (ids.foldl (fun st n => markTaskState st (Int.ofNat n)) s).conversation_history =
        s.conversation_history ∧
      (ids.foldl (fun st n => markTaskState st (Int.ofNat n)) s).is_interrupted =
        s.is_interrupted ∧
      (ids.foldl (fun st n => markTaskState st (Int.ofNat n)) s).pending_interrupt_text =
        s.pending_interrupt_text := by
  induction ids generalizing s with
  | nil => exact ⟨rfl, rfl, rfl⟩
  | cons i ids ih => exact (ih (markTaskState s (Int.ofNat i)))

/-! ### C10: the legacy and the refactored marker stripper agree -/

/-- C10: the monolithic server's `_strip_task_markers` and the refactored
`ResponseProcessor.strip_task_markers` are extensionally equal.  The two
sources perform the identical three `re.sub` substitutions in the same
order followed by `str.strip`, so their models coincide definitionally. -/
theorem C10_legacy_strip_equiv (t : Str) :
    legacyStripTaskMarkers t = strip_task_markers t := rfl

/-! ### C7: `mark_task_completed` mutates at most one task -/

/-- C7: `mark_task_completed` returns `none` and leaves every task intact
when no task carries the requested id or every task carrying it is already
completed; otherwise it flips exactly the `completed` flag of the first
not-yet-completed task with that id, keeps every other task unchanged,
deletes nothing, and returns the marked task. -/
theorem C7_mark_task_completed (tasks : List AgentTask) (taskId : Int) :
    ((∀ t ∈ tasks, t.id ≠ taskId ∨ t.completed = true) →
      mark_task_completed tasks taskId = (none, tasks)) ∧
    (∀ pre t post, tasks = pre ++ t :: post →
      (∀ u ∈ pre, u.id ≠ taskId ∨ u.completed = true) →
      t.id = taskId → t.completed = false →
      mark_task_completed tasks taskId =
        (some { t with completed := true },
         pre ++ { t with completed := true } :: post)) := by
  constructor
  · intro hall
    induction tasks with
    | nil => rfl
    | cons t ts ih =>
      have ht := hall t (by simp)
      have hcond : ¬(t.id = taskId ∧ t.completed = false) := by
        rcases ht with h | h
        · intro hc; exact h hc.1
        · intro hc; rw [h] at hc; exact absurd hc.2 (by simp)
      have hrec := ih (fun u hu => hall u (by simp [hu]))
      simp only [mark_task_completed, hcond, if_false, hrec]
  · intro pre t post hsplit hpre hid hnc
    subst hsplit
    induction pre with
    | nil =>
      simp only [List.nil_append, mark_task_completed, hid, hnc, and_self, if_true]
    | cons u pre' ih =>
      have hu := hpre u (by simp)
      have hcond : ¬(u.id = taskId ∧ u.completed = false) := by
        rcases hu with h | h
        · intro hc; exact h hc.1
        · intro hc; rw [h] at hc; exact absurd hc.2 (by simp)
      have hrec := ih (fun v hv => hpre v (by simp [hv]))
      simp only [List.cons_append, mark_task_completed, hcond, if_false]
      simp [hrec]

/-- Witness for C7: a concrete task list where an unknown id and an
already-completed id cause no mutation, and a fresh id marks exactly its
task. -/
theorem C7_mark_task_completed_witness :
    (∀ t ∈ [AgentTask.mk 1 [] true, AgentTask.mk 2 [] false],
        t.id ≠ (5 : Int) ∨ t.completed = true) ∧
    mark_task_completed [AgentTask.mk 1 [] true, AgentTask.mk 2 [] false] 5 =
      (none, [AgentTask.mk 1 [] true, AgentTask.mk 2 [] false]) ∧
    mark_task_completed [AgentTask.mk 1 [] true, AgentTask.mk 2 [] false] 2 =
      (some (AgentTask.mk 2 [] true),
       [AgentTask.mk 1 [] true, AgentTask.mk 2 [] true]) := by
  refine ⟨by decide, ?_, ?_⟩
  · exact (C7_mark_task_completed
      [AgentTask.mk 1 [] true, AgentTask.mk 2 [] false] 5).1 (by decide)
  · exact (C7_mark_task_completed
      [AgentTask.mk 1 [] true, AgentTask.mk 2 [] false] 2).2
      [AgentTask.mk 1 [] true] (AgentTask.mk 2 [] false) [] (by decide)
      (by decide) (by decide) (by decide)

/-! ### C6: finalization appends one tagged assistant message -/

/-- C6: for every non-empty response text, `_finalize_response` appends
exactly one assistant message whose content is the marker-stripped response
with the `" [interrupted]"` suffix exactly when `is_interrupted` holds at
finalization time, and emits that same content as the `agent_response`
event. -/
theorem C6_finalize_response (s : SessionState) (r : Str) (hr : r ≠ []) :
    (finalizeResponse s r).1.conversation_history =
      s.conversation_history ++
        [{ role := "assistant".toList,
           content := strip_task_markers r ++
             (if s.is_interrupted then " [interrupted]".toList else []) }] ∧
    (finalizeResponse s r).2 =
      strip_task_markers r ++
        (if s.is_interrupted then " [interrupted]".toList else []) := by
  have hf := foldl_markTask_fields (extract_task_completions r) s
  simp only [finalizeResponse, add_assistant_message]
  rw [hf.1, hf.2.1]
  by_cases hi : s.is_interrupted
  · simp [hi]
  · simp only [Bool.not_eq_true] at hi
    simp [hi]

/-- Witness for C6: finalizing a concrete marker-carrying response in an
interrupted state. -/
theorem C6_finalize_response_witness :
    (finalizeResponse { initialState with is_interrupted := true }
        ("ok [TASK_DONE:1] done".toList)).1.conversation_history =
      [{ role := "assistant".toList,
         content := "ok done [interrupted]".toList }] ∧
    (finalizeResponse { initialState with is_interrupted := true }
        ("ok [TASK_DONE:1] done".toList)).2 = "ok done [interrupted]".toList := by
  have h := C6_finalize_response { initialState with is_interrupted := true }
    ("ok [TASK_DONE:1] done".toList) (by decide)
  refine ⟨?_, ?_⟩
  · rw [h.1]; decide
  · rw [h.2]; decide

/-! ### C4: the sentence splitter neither loses nor duplicates text -/

/-- C4: `extract_complete_sentences` is a left inverse of concatenation
modulo trimming: the buffer decomposes as a prefix `p` (whose trim is the
`complete` part), a run of whitespace removed by the left-trim, and the
returned remainder, so no character of sentence text is lost or
duplicated. -/
theorem C4_sentence_split_covers (b : Str) :
    ∃ p w, b = p ++ w ++ (extract_complete_sentences b).2 ∧
      (extract_complete_sentences b).1 = strip p ∧
      ∀ c ∈ w, pyIsSpace c = true := by
  unfold extract_complete_sentences
  by_cases h : lastEnd b ≥ 0
  · simp only [h, if_true]
    refine ⟨b.take ((lastEnd b).toNat + 1),
            (b.drop ((lastEnd b).toNat + 1)).takeWhile pyIsSpace, ?_, rfl, ?_⟩
    · conv_lhs => rw [← List.take_append_drop ((lastEnd b).toNat + 1) b]
      rw [List.append_assoc]
      congr 1
      exact (List.takeWhile_append_dropWhile ..).symm
    · intro c hc
      exact List.mem_takeWhile_imp hc
  · simp only [h, if_false]
    exact ⟨[], [], by simp, rfl, by simp⟩

/-! ### C8: the echo test (corrected: the incoming text is also stripped) -/

/-- Counterexample to C8 as stated: with `"Thank you for calling."`
recorded, the incoming text `" thank you for "` (padded with blanks) is
reported as an echo by the code, although it is neither a substring of the
lower-cased stored sentence nor one of its prefixes — because `is_echo`
lower-cases *and strips* the incoming text, which the claimed iff omits. -/
theorem C8_echo_counterexample :
    ¬ (is_echo (track_agent_speech initialState ("Thank you for calling.".toList))
          (" thank you for ".toList) = true ↔
       echoSpecPred (track_agent_speech initialState ("Thank you for calling.".toList))
          (" thank you for ".toList) = true) := by
  decide

/-- C8 (amended): `is_echo` returns true iff, after lower-casing *and
stripping* the incoming text and lower-casing each stored sentence, the
incoming text is a substring of a stored sentence or a stored sentence
starts with it; in particular the two concrete examples of the claim
hold. -/
theorem C8_echo_amended :
    (∀ (s : SessionState) (t : Str),
      is_echo s t = true ↔
        ∃ a ∈ s.recent_agent_speech,
          isSubstring (strip (lowerStr t)) (lowerStr a) = true ∨
          (strip (lowerStr t)).isPrefixOf (lowerStr a) = true) ∧
    is_echo (track_agent_speech initialState ("Thank you for calling.".toList))
        ("thank you for".toList) = true ∧
    is_echo (track_agent_speech initialState ("Thank you for calling.".toList))
        ("completely unrelated".toList) = false := by
  refine ⟨?_, by decide, by decide⟩
  intro s t
  simp [is_echo, List.any_eq_true, Bool.or_eq_true]

/-! ### C2: the pending-interrupt invariant -/

/-- C2: in every state reachable through the orchestrator's operations,
`pending_interrupt_text` is non-null only while `is_interrupted` is
true. -/
theorem C2_pending_interrupt_invariant (s : SessionState) (h : Reachable s) :
    s.pending_interrupt_text ≠ none → s.is_interrupted = true := by
  induction h with
  | init => intro hp; exact absurd rfl hp
  | partialT t _ ih =>
    simp only [onPartialState, onPartialTranscript]
    split_ifs with h1 h2 h3 h4 <;> simp_all
  | finalT t _ ih =>
    simp only [onFinalState]
    split_ifs with h1 h2 h3 h4 h5 <;> simp_all
  | interruptSignal _ _ =>
    intro _; rfl
  | audioStatus b _ ih => exact ih
  | @entry s' _ hni ih =>
    intro hp
    have hnone : s'.pending_interrupt_text = none := by
      by_contra hne
      exact absurd (ih hne) (by simp [hni])
    exact absurd hnone hp
  | speak clearHistory _ ih =>
    simp only [beginSpeaking]
    split_ifs <;> exact ih
  | userMsg c _ ih => exact ih
  | trackSpeech t _ ih => exact ih
  | taskDone i _ ih => exact ih
  | @finalize s' r _ ih =>
    have hf := foldl_markTask_fields (extract_task_completions r) s'
    simp only [finalizeResponse, add_assistant_message]
    intro hp
    rw [hf.2.2] at hp
    rw [hf.2.1]
    exact ih hp
  | reset _ ih => exact ih

/-- Witness for C2: a reachable state (client interrupt, then a partial
transcript) that carries a pending interrupt text is indeed flagged
interrupted. -/
theorem C2_pending_interrupt_invariant_witness :
    (onPartialState (clientInterrupt initialState) ("hello there".toList)).is_interrupted
      = true :=
  C2_pending_interrupt_invariant _
    (Reachable.partialT _ (Reachable.interruptSignal Reachable.init)) (by decide)

/-! ### C1: one barge-in per uninterrupted speaking span -/

theorem is_echo_congr {s₁ s₂ : SessionState}
    (h : s₁.recent_agent_speech = s₂.recent_agent_speech) (t : Str) :
    is_echo s₁ t = is_echo s₂ t := by
  simp [is_echo, h]

theorem sessionState_pending_eta (st : SessionState) (v : Str)
    (h : st.pending_interrupt_text = some v) :
    { st with pending_interrupt_text := some v } = st := by
  cases st
  simp_all

/-- Partial-transcript events arriving on an already interrupted session
only overwrite `pending_interrupt_text` and never cancel anything. -/
theorem runPartials_interrupted (base : SessionState) :
    ∀ (ts : List Str) (s : Session) (v : Str),
      s.state.is_interrupted = true →
      s.state.recent_agent_speech = base.recent_agent_speech →
      s.state.pending_interrupt_text = some v →
      (∀ u ∈ ts, strip u ≠ [] ∧ is_echo base u = false) →
      (runPartials s ts).1 =
        { s with state :=
            { s.state with pending_interrupt_text := some (ts.getLastD v) } } ∧
      ∀ e ∈ (runPartials s ts).2, e.cancelledTask = false := by
  intro ts
  induction ts with
  | nil =>
    intro s v hi hr hp hall
    refine ⟨?_, by simp [runPartials]⟩
    show s = _
    rw [List.getLastD_nil, sessionState_pending_eta s.state v hp]
  | cons t ts ih =>
    intro s v hi hr hp hall
    obtain ⟨hu1, hu2⟩ := hall t (by simp)
    have hecho : is_echo s.state t = false := by
      rw [is_echo_congr hr]; exact hu2
    have hstep : onPartialTranscript s t =
        ({ s with state := { s.state with pending_interrupt_text := some t } },
         ⟨false, false, some t⟩) := by
      simp [onPartialTranscript, hu1, hecho, hi]
    have ihs := ih { s with state := { s.state with pending_interrupt_text := some t } } t
      hi hr rfl (fun u hu => hall u (by simp [hu]))
    simp only [runPartials, hstep]
    refine ⟨?_, ?_⟩
    · rw [ihs.1, List.getLastD_cons]
    · intro e he
      simp only [List.mem_cons] at he
      rcases he with he | he
      · rw [he]
      · exact ihs.2 e he

/-- C1: from a speaking (or audio-playing), not-yet-interrupted session,
the first non-empty non-echo partial transcript flips `is_interrupted` to
true, stores its text and cancels the processing task exactly when one is
in flight; every further partial of the span merely overwrites
`pending_interrupt_text` (the state is otherwise untouched) and triggers no
further cancellation. -/
theorem C1_barge_in_once (s : Session) (t : Str) (ts : List Str)
    (hspk : s.state.is_speaking = true ∨ s.state.is_audio_playing = true)
    (hni : s.state.is_interrupted = false)
    (hall : ∀ u ∈ t :: ts, strip u ≠ [] ∧ is_echo s.state u = false) :
    (onPartialTranscript s t).2.cancelledTask = s.processing_task_alive ∧
    (onPartialTranscript s t).1.state.is_interrupted = true ∧
    (onPartialTranscript s t).1.state.pending_interrupt_text = some t ∧
    (runPartials (onPartialTranscript s t).1 ts).1 =
      { s with state :=
          { s.state with is_interrupted := true,
                         pending_interrupt_text := some (ts.getLastD t) } } ∧
    ∀ e ∈ (runPartials (onPartialTranscript s t).1 ts).2, e.cancelledTask = false := by
  obtain ⟨hu1, hu2⟩ := hall t (by simp)
  have hcond : (s.state.is_speaking || s.state.is_audio_playing) = true := by
    rcases hspk with h | h <;> simp [h]
  have hstep : onPartialTranscript s t =
      ({ s with state :=
          { s.state with is_interrupted := true, pending_interrupt_text := some t } },
       ⟨s.processing_task_alive, true, some t⟩) := by
    simp [onPartialTranscript, hu1, hu2, hni, hcond]
  have hrun := runPartials_interrupted s.state ts
    { s with state :=
        { s.state with is_interrupted := true, pending_interrupt_text := some t } } t
    rfl rfl rfl (fun u hu => (hall u (by simp [hu])))
  rw [hstep]
  exact ⟨rfl, rfl, rfl, hrun.1, hrun.2⟩

def c1Session : Session := ⟨{ initialState with is_speaking := true }, true⟩

def c1First : Str := "stop".toList

def c1Rest : List Str := ["wait".toList, "please hold on".toList]

/-- Witness for C1: a concrete speaking session with a live processing task
receiving three partials. -/
theorem C1_barge_in_once_witness :
    ((c1Session.state.is_speaking = true ∨ c1Session.state.is_audio_playing = true) ∧
     c1Session.state.is_interrupted = false ∧
     (∀ u ∈ c1First :: c1Rest, strip u ≠ [] ∧ is_echo c1Session.state u = false)) ∧
    ((onPartialTranscript c1Session c1First).2.cancelledTask =
        c1Session.processing_task_alive ∧
     (onPartialTranscript c1Session c1First).1.state.is_interrupted = true ∧
     (onPartialTranscript c1Session c1First).1.state.pending_interrupt_text =
        some c1First ∧
     (runPartials (onPartialTranscript c1Session c1First).1 c1Rest).1 =
       { c1Session with state :=
           { c1Session.state with
               is_interrupted := true
               pending_interrupt_text := some (c1Rest.getLastD c1First) } } ∧
     ∀ e ∈ (runPartials (onPartialTranscript c1Session c1First).1 c1Rest).2,
       e.cancelledTask = false) :=
  ⟨⟨by decide, by decide, by decide⟩,
   C1_barge_in_once c1Session c1First c1Rest (by decide) (by decide) (by decide)⟩

/-! ### C9: task-marker extraction -/

theorem extractTaskF_fuel_eq :
    ∀ (n : Nat) (l : Str), l.length ≤ n → ∀ f g, l.length ≤ f → l.length ≤ g →
      extractTaskF f l = extractTaskF g l := by
  intro n
  induction n with
  | zero =>
    intro l hl f g _ _
    have : l = [] := by
      cases l with
      | nil => rfl
      | cons c t => simp at hl
    subst this
    cases f <;> cases g <;> rfl
  | succ n ih =>
    intro l hl f g hf hg
    cases l with
    | nil => cases f <;> cases g <;> rfl
    | cons c t =>
      cases f with
      | zero => simp at hf
      | succ f' =>
        cases g with
        | zero => simp at hg
        | succ g' =>
          show extractTaskF (f' + 1) (c :: t) = extractTaskF (g' + 1) (c :: t)
          simp only [extractTaskF]
          cases hm : matchCore (c :: t) with
          | none =>
            simp only [List.length_cons] at hl hf hg
            show extractTaskF f' t = extractTaskF g' t
            exact ih t (by omega) f' g' (by omega) (by omega)
          | some p =>
            obtain ⟨ds, r⟩ := p
            have hr := matchCore_length hm
            simp only [List.length_cons] at hl hf hg hr
            show digitsToNat ds :: extractTaskF f' r = digitsToNat ds :: extractTaskF g' r
            rw [ih r (by omega) f' g' (by omega) (by omega)]

theorem extract_cons_of_ne {c : Char} {t : Str} (hc : c ≠ '[') :
    extract_task_completions (c :: t) = extract_task_completions t := by
  show extractTaskF (c :: t).length (c :: t) = extractTaskF t.length t
  simp only [List.length_cons, extractTaskF, matchCore_cons_ne hc]

theorem extract_append_gap {g : Str} (r : Str) (hg : ∀ c ∈ g, c ≠ '[') :
    extract_task_completions (g ++ r) = extract_task_completions r := by
  induction g with
  | nil => rfl
  | cons c g' ih =>
    rw [List.cons_append, extract_cons_of_ne (hg c (by simp))]
    exact ih (fun x hx => hg x (by simp [hx]))

theorem extract_marker_head (ds b : Str) (hne : ds ≠ [])
    (hdig : ∀ c ∈ ds, c.isDigit = true) :
    extract_task_completions (taskDoneLit ++ ds ++ ']' :: b) =
      digitsToNat ds :: extract_task_completions b := by
  have hm : matchCore (taskDoneLit ++ ds ++ ']' :: b) = some (ds, b) :=
    matchCore_eq_some.mpr ⟨rfl, hne, hdig⟩
  cases hfull : taskDoneLit ++ ds ++ ']' :: b with
  | nil => exact absurd hfull (by simp [taskDoneLit])
  | cons c t =>
    have hlen : t.length = 10 + ds.length + 1 + b.length := by
      have := congrArg List.length hfull
      simp [taskDoneLit] at this
      omega
    show extractTaskF (c :: t).length (c :: t) = _
    simp only [List.length_cons, extractTaskF]
    rw [← hfull, hm]
    have hfe : extractTaskF t.length b = extractTaskF b.length b :=
      extractTaskF_fuel_eq t.length b (by omega) t.length b.length (by omega) le_rfl
    show digitsToNat ds :: extractTaskF t.length b = digitsToNat ds :: extractTaskF b.length b
    rw [hfe]

/-- A complete marker `[TASK_DONE:` ++ digits ++ `]`. -/
def mkMarker (ds : Str) : Str := taskDoneLit ++ ds ++ [']']

/-- A text interleaving gap segments with complete markers. -/
def assembleMarkers : Str → List (Str × Str) → Str
  | g0, [] => g0
  | g0, p :: ps => g0 ++ mkMarker p.1 ++ assembleMarkers p.2 ps

/-- C9: on `"Let's talk about [TASK_DONE:2] savings."` the extractor
returns exactly `[2]` and the stripper returns exactly
`"Let's talk about savings."`; in general, for any text whose `[`
characters all open complete markers, `extract_task_completions` returns
the marker integers in order of appearance with duplicates preserved. -/
theorem C9_extract_task_completions :
    (extract_task_completions ("Let\x27s talk about [TASK_DONE:2] savings.".toList) =
        [2] ∧
     strip_task_markers ("Let\x27s talk about [TASK_DONE:2] savings.".toList) =
        "Let\x27s talk about savings.".toList) ∧
    (∀ (g0 : Str) (ps : List (Str × Str)),
      (∀ c ∈ g0, c ≠ '[') →
      (∀ p ∈ ps, (p.1 ≠ [] ∧ ∀ c ∈ p.1, c.isDigit = true) ∧ ∀ c ∈ p.2, c ≠ '[') →
      extract_task_completions (assembleMarkers g0 ps) =
        ps.map fun p => digitsToNat p.1) := by
  refine ⟨⟨by decide, by decide⟩, ?_⟩
  intro g0 ps
  induction ps generalizing g0 with
  | nil =>
    intro hg _
    have h := extract_append_gap [] hg
    rw [List.append_nil] at h
    exact h
  | cons p ps ih =>
    intro hg hps
    show extract_task_completions (g0 ++ mkMarker p.1 ++ assembleMarkers p.2 ps) = _
    rw [List.append_assoc, extract_append_gap _ hg]
    have hmk : mkMarker p.1 ++ assembleMarkers p.2 ps =
        taskDoneLit ++ p.1 ++ ']' :: assembleMarkers p.2 ps := by
      simp [mkMarker]
    rw [hmk]
    obtain ⟨⟨hne, hdig⟩, hgap⟩ := hps p (by simp)
    rw [extract_marker_head p.1 _ hne hdig]
    rw [ih p.2 hgap (fun q hq => hps q (by simp [hq]))]
    rfl

/-- Witness for C9's general clause: two markers with the same id around
bracket-free gaps; the duplicate is preserved in order. -/
theorem C9_extract_task_completions_witness :
    ((∀ c ∈ ("a ".toList : Str), c ≠ '[') ∧
     (∀ p ∈ [(("2".toList : Str), (" b".toList : Str)),
             (("2".toList : Str), ([] : Str))],
        (p.1 ≠ [] ∧ ∀ c ∈ p.1, c.isDigit = true) ∧ ∀ c ∈ p.2, c ≠ '[')) ∧
    extract_task_completions
      (assembleMarkers ("a ".toList)
        [(("2".toList : Str), (" b".toList : Str)),
         (("2".toList : Str), ([] : Str))]) = [2, 2] := by
  refine ⟨⟨by decide, by decide⟩, ?_⟩
  rw [C9_extract_task_completions.2 ("a ".toList)
    [(("2".toList : Str), (" b".toList : Str)), (("2".toList : Str), ([] : Str))]
    (by decide) (by decide)]
  decide

/-! ### C5: characterizing the sentence-split position -/

theorem getElem?_some_lt {l : Str} {i : Nat} {x : Char} (h : l[i]? = some x) :
    i < l.length := by
  by_contra hge
  rw [List.getElem?_eq_none (by omega)] at h
  exact absurd h (by simp)

theorem getLast?_filter_range_none {n : Nat} {p : Nat → Bool}
    (h : ((List.range n).filter p).getLast? = none) : ∀ i < n, p i = false := by
  intro i hi
  have hnil : (List.range n).filter p = [] := by
    rwa [List.getLast?_eq_none_iff] at h
  by_contra hp
  simp only [Bool.not_eq_false] at hp
  have : i ∈ (List.range n).filter p := by
    simp [List.mem_filter, List.mem_range, hi, hp]
  rw [hnil] at this
  simp at this

theorem le_getLast_of_pairwise :
    ∀ {l : List Nat}, l.Pairwise (· < ·) → ∀ {x m : Nat}, x ∈ l →
      l.getLast? = some m → x ≤ m := by
  intro l
  induction l with
  | nil => intro _ x m hx; simp at hx
  | cons a t ih =>
    intro hp x m hx hm
    have hpt := (List.pairwise_cons.mp hp).2
    have halt := (List.pairwise_cons.mp hp).1
    cases t with
    | nil =>
      simp at hm hx
      omega
    | cons b t' =>
      rw [List.getLast?_cons_cons] at hm
      rcases List.mem_cons.mp hx with rfl | hx'
      · have hmem : m ∈ b :: t' := List.mem_of_getLast?_eq_some hm
        exact le_of_lt (halt m hmem)
      · exact ih hpt hx' hm

theorem getLast?_filter_range_some {n m : Nat} {p : Nat → Bool}
    (h : ((List.range n).filter p).getLast? = some m) :
    p m = true ∧ m < n ∧ ∀ i < n, p i = true → i ≤ m := by
  have hmem : m ∈ (List.range n).filter p := List.mem_of_getLast?_eq_some h
  have hp : p m = true := (List.mem_filter.mp hmem).2
  have hm : m < n := List.mem_range.mp (List.mem_filter.mp hmem).1
  refine ⟨hp, hm, ?_⟩
  intro i hi hpi
  have hsorted : ((List.range n).filter p).Pairwise (· < ·) :=
    (List.pairwise_lt_range n).filter p
  have hmemi : i ∈ (List.range n).filter p := by
    simp [List.mem_filter, List.mem_range, hi, hpi]
  exact le_getLast_of_pairwise hsorted hmemi h

theorem isPrefixOf_pair {x y : Char} {l : Str} :
    [x, y].isPrefixOf l = true ↔ l[0]? = some x ∧ l[1]? = some y := by
  cases l with
  | nil => simp [List.isPrefixOf]
  | cons a t =>
    cases t with
    | nil => simp [List.isPrefixOf]
    | cons b t' =>
      simp only [List.isPrefixOf, Bool.and_eq_true, beq_iff_eq,
        List.getElem?_cons_zero, List.getElem?_cons_succ, Option.some.injEq]
      constructor
      · rintro ⟨h1, h2, -⟩
        exact ⟨h1.symm, h2.symm⟩
      · rintro ⟨h1, h2⟩
        exact ⟨h1.symm, h2.symm, trivial⟩

theorem occursAt_iff {b : Str} {e : Char} {i : Nat} :
    [e, ' '].isPrefixOf (b.drop i) = true ↔ b[i]? = some e ∧ b[i + 1]? = some ' ' := by
  rw [isPrefixOf_pair, List.getElem?_drop, List.getElem?_drop, Nat.add_zero]

theorem rfindSub_spec (hay pat : Str) :
    (rfindSub hay pat = -1 ∧ ∀ i ≤ hay.length, pat.isPrefixOf (hay.drop i) = false) ∨
    (∃ m : Nat, rfindSub hay pat = m ∧ pat.isPrefixOf (hay.drop m) = true ∧
      ∀ i ≤ hay.length, pat.isPrefixOf (hay.drop i) = true → i ≤ m) := by
  unfold rfindSub rfindIdx
  cases h : ((List.range (hay.length + 1)).filter
      fun i => pat.isPrefixOf (hay.drop i)).getLast? with
  | none =>
    left
    exact ⟨rfl, fun i hi => getLast?_filter_range_none h i (by omega)⟩
  | some m =>
    right
    obtain ⟨hp, hm, hmax⟩ := getLast?_filter_range_some h
    exact ⟨m, rfl, hp, fun i hi hpi => hmax i (by omega) hpi⟩

theorem posAtEnd_last {b : Str} {e : Char} (h : b.getLast? = some e) :
    posAtEnd b e = (b.length : Int) - 1 := by
  unfold posAtEnd
  rw [h]
  simp

theorem posAtEnd_spec (b : Str) (e : Char) :
    posAtEnd b e = -1 ∨
    (b.getLast? = some e ∧ posAtEnd b e = (b.length : Int) - 1) := by
  unfold posAtEnd
  cases h : b.getLast? with
  | none => left; rfl
  | some c =>
    by_cases hc : c = e
    · subst hc
      right
      exact ⟨rfl, by simp⟩
    · left
      simp [hc]

theorem foldl_max2_ge (f g : Char → Int) :
    ∀ (l : List Char) (a : Int),
      a ≤ l.foldl (fun acc e => max (max acc (f e)) (g e)) a ∧
      ∀ e ∈ l, f e ≤ l.foldl (fun acc e => max (max acc (f e)) (g e)) a ∧
        g e ≤ l.foldl (fun acc e => max (max acc (f e)) (g e)) a := by
  intro l
  induction l with
  | nil => intro a; exact ⟨le_refl a, by simp⟩
  | cons c t ih =>
    intro a
    have iha := ih (max (max a (f c)) (g c))
    constructor
    · calc a ≤ max (max a (f c)) (g c) := by
            exact le_trans (le_max_left a (f c)) (le_max_left _ _)
        _ ≤ _ := iha.1
    · intro e he
      rcases List.mem_cons.mp he with rfl | he'
      · constructor
        · exact le_trans (le_trans (le_max_right a (f e)) (le_max_left _ _)) iha.1
        · exact le_trans (le_max_right _ (g e)) iha.1
      · exact iha.2 e he'

theorem foldl_max2_cases (f g : Char → Int) :
    ∀ (l : List Char) (a : Int),
      l.foldl (fun acc e => max (max acc (f e)) (g e)) a = a ∨
      ∃ e ∈ l, l.foldl (fun acc e => max (max acc (f e)) (g e)) a = f e ∨
        l.foldl (fun acc e => max (max acc (f e)) (g e)) a = g e := by
  intro l
  induction l with
  | nil => intro a; left; rfl
  | cons c t ih =>
    intro a
    rcases ih (max (max a (f c)) (g c)) with h | ⟨e, he, h⟩
    · rcases max_choice (max a (f c)) (g c) with h2 | h2
      · rcases max_choice a (f c) with h3 | h3
        · left; rw [List.foldl_cons, h, h2, h3]
        · right; exact ⟨c, by simp, Or.inl (by rw [List.foldl_cons, h, h2, h3])⟩
      · right; exact ⟨c, by simp, Or.inr (by rw [List.foldl_cons, h, h2])⟩
    · right; exact ⟨e, by simp [he], h⟩

/-- A position where the code may split: a sentence terminator immediately
followed by a space, or a terminator that ends the buffer. -/
def GoodAt (b : Str) (i : Nat) : Prop :=
  (∃ e ∈ sentence_endings, b[i]? = some e ∧ b[i + 1]? = some ' ') ∨
  (∃ e ∈ sentence_endings, i + 1 = b.length ∧ b[i]? = some e)

instance (b : Str) (i : Nat) : Decidable (GoodAt b i) := by
  unfold GoodAt
  infer_instance

theorem goodAt_le_lastEnd {b : Str} {i : Nat} (h : GoodAt b i) :
    (i : Int) ≤ lastEnd b := by
  have hge := foldl_max2_ge (fun e => rfindSub b [e, ' ']) (fun e => posAtEnd b e)
    sentence_endings (-1)
  rcases h with ⟨e, hmem, h1, h2⟩ | ⟨e, hmem, hlen, h1⟩
  · have hocc : [e, ' '].isPrefixOf (b.drop i) = true := occursAt_iff.mpr ⟨h1, h2⟩
    have hib : i < b.length := getElem?_some_lt h1
    rcases rfindSub_spec b [e, ' '] with ⟨-, hnone⟩ | ⟨m, heq, -, hmax⟩
    · rw [hnone i (by omega)] at hocc
      exact absurd hocc (by simp)
    · have him : i ≤ m := hmax i (by omega) hocc
      have : rfindSub b [e, ' '] ≤ lastEnd b := (hge.2 e hmem).1
      rw [heq] at this
      omega
  · have hlast : b.getLast? = some e := by
      rw [List.getLast?_eq_getElem?]
      have : b.length - 1 = i := by omega
      rw [this]
      exact h1
    have hpa : posAtEnd b e = (b.length : Int) - 1 := posAtEnd_last hlast
    have : posAtEnd b e ≤ lastEnd b := (hge.2 e hmem).2
    rw [hpa] at this
    omega

theorem lastEnd_goodAt {b : Str} (h : lastEnd b ≥ 0) :
    GoodAt b (lastEnd b).toNat ∧ (lastEnd b).toNat < b.length := by
  rcases foldl_max2_cases (fun e => rfindSub b [e, ' ']) (fun e => posAtEnd b e)
      sentence_endings (-1) with hc | ⟨e, hmem, hc | hc⟩
  · rw [show lastEnd b = sentence_endings.foldl
        (fun acc e => max (max acc (rfindSub b [e, ' '])) (posAtEnd b e)) (-1) from rfl,
      hc] at h
    omega
  · have hc' : lastEnd b = rfindSub b [e, ' '] := hc
    rcases rfindSub_spec b [e, ' '] with ⟨hneg, -⟩ | ⟨m, heq, hocc, -⟩
    · rw [hc', hneg] at h; omega
    · obtain ⟨h1, h2⟩ := occursAt_iff.mp hocc
      have : (lastEnd b).toNat = m := by rw [hc', heq]; simp
      rw [this]
      exact ⟨Or.inl ⟨e, hmem, h1, h2⟩, getElem?_some_lt h1⟩
  · have hc' : lastEnd b = posAtEnd b e := hc
    rcases posAtEnd_spec b e with hneg | ⟨hlast, hval⟩
    · rw [hc', hneg] at h; omega
    · have hlen : b.length ≥ 1 := by
        by_contra hb
        have : b = [] := by
          cases b with
          | nil => rfl
          | cons x xs => simp at hb
        rw [this] at hlast
        simp at hlast
      have htn : (lastEnd b).toNat = b.length - 1 := by
        rw [hc', hval]
        omega
      have h1 : b[b.length - 1]? = some e := by
        rw [← List.getLast?_eq_getElem?]
        exact hlast
      rw [htn]
      refine ⟨Or.inr ⟨e, hmem, by omega, h1⟩, by omega⟩

/-- C5: `extract_complete_sentences` splits at the right-most position
carrying a sentence terminator followed by a space or ending the buffer —
returning the trimmed prefix through that terminator and the left-trimmed
rest — and returns `("", buffer)` unchanged when no such position
exists. -/
theorem C5_extract_complete_sentences (b : Str) :
    ((∀ i < b.length, ¬ GoodAt b i) → extract_complete_sentences b = ([], b)) ∧
    (∀ i, GoodAt b i → (∀ j < b.length, GoodAt b j → j ≤ i) →
      extract_complete_sentences b =
        (strip (b.take (i + 1)), lstrip (b.drop (i + 1)))) := by
  constructor
  · intro hno
    unfold extract_complete_sentences
    have hneg : ¬ lastEnd b ≥ 0 := by
      intro hge
      obtain ⟨hg, hlt⟩ := lastEnd_goodAt hge
      exact hno _ hlt hg
    simp [hneg]
  · intro i hg hmax
    have h1 : (i : Int) ≤ lastEnd b := goodAt_le_lastEnd hg
    have hge : lastEnd b ≥ 0 := le_trans (by omega) h1
    obtain ⟨hg', hlt⟩ := lastEnd_goodAt hge
    have h2 : (lastEnd b).toNat ≤ i := hmax _ hlt hg'
    have heq : (lastEnd b).toNat = i := by omega
    unfold extract_complete_sentences
    simp [hge, heq]

/-- Witness for C5: a buffer with no terminator stays untouched, and
`"a! b? c"` splits at the right-most terminator position 4. -/
theorem C5_extract_complete_sentences_witness :
    ((∀ i < ("no marks".toList : Str).length, ¬ GoodAt ("no marks".toList) i) ∧
     extract_complete_sentences ("no marks".toList) = ([], "no marks".toList)) ∧
    (GoodAt ("a! b? c".toList) 4 ∧
     (∀ j < ("a! b? c".toList : Str).length, GoodAt ("a! b? c".toList) j → j ≤ 4) ∧
     extract_complete_sentences ("a! b? c".toList) =
       ("a! b?".toList, "c".toList)) := by
  refine ⟨⟨by decide, (C5_extract_complete_sentences ("no marks".toList)).1 (by decide)⟩,
          by decide, by decide, ?_⟩
  rw [(C5_extract_complete_sentences ("a! b? c".toList)).2 4 (by decide) (by decide)]
  decide

/-! ### C3: idempotence of the marker stripper (corrected) -/

theorem dropWhile_idem (p : Char → Bool) (l : Str) :
    (l.dropWhile p).dropWhile p = l.dropWhile p := by
  induction l with
  | nil => rfl
  | cons c t ih =>
    by_cases hc : p c
    · simp [List.dropWhile_cons, hc, ih]
    · simp [List.dropWhile_cons, hc]

theorem lstrip_idem (l : Str) : lstrip (lstrip l) = lstrip l :=
  dropWhile_idem pyIsSpace l

theorem rstrip_prefix_self (l : Str) : rstrip l <+: l := by
  unfold rstrip
  have h : l.reverse.dropWhile pyIsSpace <:+ l.reverse := List.dropWhile_suffix pyIsSpace
  conv_rhs => rw [← List.reverse_reverse l]
  exact List.reverse_prefix.mpr h

theorem lstrip_suffix (l : Str) : lstrip l <:+ l := List.dropWhile_suffix pyIsSpace

theorem lstrip_head_not_space {l : Str} {c : Char} (h : (lstrip l).head? = some c) :
    pyIsSpace c = false := by
  induction l with
  | nil => simp [lstrip] at h
  | cons a t ih =>
    by_cases ha : pyIsSpace a
    · rw [show lstrip (a :: t) = lstrip t from by simp [lstrip, List.dropWhile_cons, ha]] at h
      exact ih h
    · rw [show lstrip (a :: t) = a :: t from by
        simp [lstrip, List.dropWhile_cons, ha]] at h
      injection h with h'
      subst h'
      simpa using ha

theorem rstrip_last_not_space {l : Str} {c : Char} (h : (rstrip l).getLast? = some c) :
    pyIsSpace c = false := by
  unfold rstrip at h
  rw [List.getLast?_reverse] at h
  exact lstrip_head_not_space h

theorem lstrip_eq_self_of_head {l : Str}
    (h : ∀ c, l.head? = some c → pyIsSpace c = false) : lstrip l = l := by
  cases l with
  | nil => rfl
  | cons c t =>
    have := h c rfl
    simp [lstrip, List.dropWhile_cons, this]

theorem rstrip_eq_self_of_last {l : Str}
    (h : ∀ c, l.getLast? = some c → pyIsSpace c = false) : rstrip l = l := by
  have h2 : lstrip l.reverse = l.reverse :=
    lstrip_eq_self_of_head (l := l.reverse) (fun c hc => by
      rw [List.head?_reverse] at hc
      exact h c hc)
  unfold rstrip
  rw [show List.dropWhile pyIsSpace l.reverse = lstrip l.reverse from rfl, h2,
    List.reverse_reverse]

theorem getLast?_of_suffix {l₁ l₂ : Str} (h : l₁ <:+ l₂) (hne : l₁ ≠ []) :
    l₂.getLast? = l₁.getLast? := by
  obtain ⟨t, ht⟩ := h
  subst ht
  rw [List.getLast?_append]
  cases hc : l₁.getLast? with
  | none => exact absurd (List.getLast?_eq_none_iff.mp hc) hne
  | some c => rfl

theorem strip_idem (l : Str) : strip (strip l) = strip l := by
  have hb : strip l = lstrip (rstrip l) := rfl
  have hlast : ∀ c, (strip l).getLast? = some c → pyIsSpace c = false := by
    intro c hc
    have hne : strip l ≠ [] := by
      intro hnil
      rw [hnil] at hc
      simp at hc
    have hsuf : strip l <:+ rstrip l := by
      rw [hb]
      exact lstrip_suffix (rstrip l)
    have : (rstrip l).getLast? = some c := by
      rw [getLast?_of_suffix hsuf hne]
      exact hc
    exact rstrip_last_not_space this
  show lstrip (rstrip (strip l)) = strip l
  rw [rstrip_eq_self_of_last hlast, hb, lstrip_idem]

/-- No suffix of `l` starts a complete task marker. -/
def NoCore (l : Str) : Prop := ∀ s, s <:+ l → matchCore s = none

theorem matchCore_isSome_append {a v : Str} (h : matchCore a ≠ none) :
    matchCore (a ++ v) ≠ none := by
  cases hm : matchCore a with
  | none => exact absurd hm h
  | some p =>
    obtain ⟨ds, r⟩ := p
    rw [matchCore_append hm]
    simp

theorem noCore_of_infix {l₁ l₂ : Str} (h : l₁ <:+: l₂) (hnc : NoCore l₂) :
    NoCore l₁ := by
  intro s hs
  obtain ⟨u, v, huv⟩ := h
  by_contra hne
  have h2 : matchCore (s ++ v) ≠ none := matchCore_isSome_append hne
  have hsuf : s ++ v <:+ l₂ := by
    obtain ⟨w, hw⟩ := hs
    refine ⟨u ++ w, ?_⟩
    rw [← huv, ← hw]
    simp
  exact h2 (hnc _ hsuf)

theorem digit_not_space {x : Char} (h : x.isDigit = true) : pyIsSpace x = false := by
  by_contra hs
  simp only [Bool.not_eq_false] at hs
  unfold pyIsSpace at hs
  simp only [Bool.or_eq_true, decide_eq_true_eq] at hs
  rcases hs with ((((h1 | h1) | h1) | h1) | h1) | h1 <;>
    (subst h1; exact absurd h (by decide))

/-- A complete-marker match never consumes a blank: if a match starts at
`a` in `a ++ c :: b` with `c` blank, the match lies inside `a`. -/
theorem matchCore_space_junction {a : Str} {c : Char} {b : Str}
    (hc : pyIsSpace c = true) (h : matchCore (a ++ c :: b) ≠ none) :
    matchCore a ≠ none := by
  cases hm : matchCore (a ++ c :: b) with
  | none => exact absurd hm h
  | some p =>
    obtain ⟨ds, r⟩ := p
    obtain ⟨hl, hne, hdig⟩ := matchCore_eq_some.mp hm
    have hl' : a ++ c :: b = (taskDoneLit ++ ds ++ [']']) ++ r := by
      rw [hl]
      simp
    have hPchars : ∀ x ∈ taskDoneLit ++ ds ++ [']'], pyIsSpace x = false := by
      intro x hx
      simp only [List.mem_append, List.mem_singleton] at hx
      rcases hx with (hx | hx) | hx
      · exact (by decide : ∀ x ∈ taskDoneLit, pyIsSpace x = false) x hx
      · exact digit_not_space (hdig x hx)
      · subst hx; decide
    by_cases hlen : (taskDoneLit ++ ds ++ [']']).length ≤ a.length
    · have htake : a.take (taskDoneLit ++ ds ++ [']']).length = taskDoneLit ++ ds ++ [']'] := by
        have hx1 : (a ++ c :: b).take (taskDoneLit ++ ds ++ [']']).length =
            taskDoneLit ++ ds ++ [']'] := by
          rw [hl']
          exact List.take_left' rfl
        have hx2 : (a ++ c :: b).take (taskDoneLit ++ ds ++ [']']).length =
            a.take (taskDoneLit ++ ds ++ [']']).length :=
          List.take_append_of_le_length hlen
        rw [← hx2, hx1]
      have ha : a = (taskDoneLit ++ ds ++ [']']) ++
          a.drop (taskDoneLit ++ ds ++ [']']).length := by
        conv_lhs => rw [← List.take_append_drop (taskDoneLit ++ ds ++ [']']).length a, htake]
      have : matchCore a = some (ds, a.drop (taskDoneLit ++ ds ++ [']']).length) := by
        apply matchCore_eq_some.mpr
        refine ⟨?_, hne, hdig⟩
        rw [ha]
        simp
      simp [this]
    · push_neg at hlen
      have hidx : (a ++ c :: b)[a.length]? = some c := by
        rw [List.getElem?_append_right (le_refl a.length)]
        simp
      rw [hl', List.getElem?_append_left hlen] at hidx
      have hmem : c ∈ taskDoneLit ++ ds ++ [']'] := List.getElem?_mem hidx
      have := hPchars c hmem
      rw [hc] at this
      exact absurd this (by simp)

theorem matchCleanup_length {l r : Str} (h : matchCleanup l = some r) :
    r.length < l.length := by
  unfold matchCleanup at h
  cases hm : matchCore (lstrip l) with
  | none => simp [hm] at h
  | some p =>
    obtain ⟨ds, r0⟩ := p
    simp only [hm] at h
    injection h with h'
    subst h'
    have h1 := matchCore_length hm
    have h2 : (lstrip l).length ≤ l.length := length_dropWhile_le' pyIsSpace l
    have h3 : (lstrip r0).length ≤ r0.length := length_dropWhile_le' pyIsSpace r0
    omega

theorem matchCleanup_of_core {t : Str} (h : matchCore ('[' :: t) ≠ none) :
    matchCleanup ('[' :: t) ≠ none := by
  unfold matchCleanup
  have hl : lstrip ('[' :: t) = '[' :: t := by
    simp [lstrip, List.dropWhile_cons, (by decide : pyIsSpace '[' = false)]
  rw [hl]
  cases hmm : matchCore ('[' :: t) with
  | none => exact absurd hmm h
  | some p => simp

theorem subCleanupF_id : ∀ (f : Nat) (l : Str), l.length ≤ f →
    (∀ s, s <:+ l → matchCleanup s = none) → subCleanupF f l = l := by
  intro f
  induction f with
  | zero =>
    intro l hl _
    cases l with
    | nil => rfl
    | cons c t => simp at hl
  | succ f ih =>
    intro l hl hno
    cases l with
    | nil => rfl
    | cons c t =>
      have h0 : matchCleanup (c :: t) = none := hno _ List.suffix_rfl
      simp only [subCleanupF, h0]
      rw [ih t (by simp at hl; omega)
        (fun s hs => hno s (hs.trans (List.suffix_cons c t)))]

theorem matchCleanup_eq_none_of_noCore {l : Str} (h : NoCore l) :
    ∀ s, s <:+ l → matchCleanup s = none := by
  intro s hs
  unfold matchCleanup
  have hsuf : lstrip s <:+ l := (lstrip_suffix s).trans hs
  rw [h _ hsuf]

theorem subCleanupF_decomp : ∀ (f : Nat) (l : Str), l.length ≤ f →
    subCleanupF f l = l ∨
    ∃ u v w, l = u ++ v ∧ subCleanupF f l = u ++ ' ' :: w := by
  intro f
  induction f with
  | zero =>
    intro l hl
    left
    cases l with
    | nil => rfl
    | cons c t => simp at hl
  | succ f ih =>
    intro l hl
    cases l with
    | nil => left; rfl
    | cons c t =>
      cases hm : matchCleanup (c :: t) with
      | some r =>
        right
        refine ⟨[], c :: t, subCleanupF f r, rfl, ?_⟩
        simp only [subCleanupF, hm]
        rfl
      | none =>
        have hlen : t.length ≤ f := by simp at hl; omega
        rcases ih t hlen with h | ⟨u, v, w, hv, hw⟩
        · left
          simp only [subCleanupF, hm]
          rw [h]
        · right
          refine ⟨c :: u, v, w, by rw [hv]; rfl, ?_⟩
          simp only [subCleanupF, hm]
          rw [hw]
          rfl

/-- The output of the complete-marker substitution contains no complete
marker: copied characters never start one (the scanner would have replaced
it) and the inserted blank cannot occur inside one. -/
theorem noCore_subCleanupF : ∀ (f : Nat) (l : Str), l.length ≤ f →
    NoCore (subCleanupF f l) := by
  intro f
  induction f with
  | zero =>
    intro l hl s hs
    cases l with
    | nil =>
      rw [List.suffix_nil.mp hs]
      exact matchCore_nil
    | cons c t => simp at hl
  | succ f ih =>
    intro l hl s hs
    cases l with
    | nil =>
      rw [List.suffix_nil.mp hs]
      exact matchCore_nil
    | cons c t =>
      cases hm : matchCleanup (c :: t) with
      | some r =>
        have hrlen : r.length ≤ f := by
          have := matchCleanup_length hm
          simp at this hl
          omega
        rw [show subCleanupF (f + 1) (c :: t) = ' ' :: subCleanupF f r from by
          simp only [subCleanupF, hm]] at hs
        rcases List.suffix_cons_iff.mp hs with hs1 | hs2
        · rw [hs1]
          exact matchCore_cons_ne (by decide)
        · exact ih r hrlen s hs2
      | none =>
        have hlen : t.length ≤ f := by simp at hl; omega
        rw [show subCleanupF (f + 1) (c :: t) = c :: subCleanupF f t from by
          simp only [subCleanupF, hm]] at hs
        rcases List.suffix_cons_iff.mp hs with hs1 | hs2
        · rw [hs1]
          by_cases hc : c = '['
          · subst hc
            by_contra hne
            rcases subCleanupF_decomp f t hlen with hid | ⟨u, v, w, hv, hw⟩
            · rw [hid] at hne
              exact matchCleanup_of_core hne hm
            · rw [hw] at hne
              have hne2 : matchCore (('[' :: u) ++ ' ' :: w) ≠ none := hne
              have h3 : matchCore ('[' :: u) ≠ none :=
                matchCore_space_junction (by decide) hne2
              have h4 : matchCore (('[' :: u) ++ v) ≠ none := matchCore_isSome_append h3
              have h5 : matchCore ('[' :: t) ≠ none := by
                rw [show ('[' : Char) :: t = ('[' :: u) ++ v from by rw [hv]; rfl]
                exact h4
              exact matchCleanup_of_core h5 hm
          · exact matchCore_cons_ne hc
        · exact ih t hlen s hs2

theorem subTailF_decomp : ∀ (f : Nat) (l : Str), l.length ≤ f →
    ∃ pre suf, subTailMarkerF f l = pre ++ suf ∧ pre <+: l ∧
      (suf = [] ∨ suf = ['\n']) := by
  intro f
  induction f with
  | zero =>
    intro l hl
    cases l with
    | nil => exact ⟨[], [], rfl, List.prefix_rfl, Or.inl rfl⟩
    | cons c t => simp at hl
  | succ f ih =>
    intro l hl
    cases l with
    | nil => exact ⟨[], [], rfl, List.prefix_rfl, Or.inl rfl⟩
    | cons c t =>
      cases hm : matchTailMarker (c :: t) with
      | some r =>
        rcases matchTailMarker_cases hm with hr | hr
        · subst hr
          refine ⟨[], [], ?_, by simp, Or.inl rfl⟩
          simp only [subTailMarkerF, hm]
          cases f <;> rfl
        · subst hr
          have hf1 : 1 ≤ f := by
            have := matchTailMarker_length hm
            simp at this hl
            omega
          refine ⟨[], ['\n'], ?_, by simp, Or.inr rfl⟩
          simp only [subTailMarkerF, hm]
          cases f with
          | zero => omega
          | succ f' =>
            rw [show subTailMarkerF (f' + 1) ['\n'] =
              '\n' :: subTailMarkerF f' [] from by
                simp only [subTailMarkerF, (by decide : matchTailMarker ['\n'] = none)]]
            cases f' <;> rfl
      | none =>
        have hlen : t.length ≤ f := by simp at hl; omega
        obtain ⟨pre, suf, heq, hpre, hsuf⟩ := ih t hlen
        refine ⟨c :: pre, suf, ?_, ?_, hsuf⟩
        · simp only [subTailMarkerF, hm]
          rw [heq]
          rfl
        · obtain ⟨z, hz⟩ := hpre
          exact ⟨z, by rw [← hz]; rfl⟩

theorem noCore_subTailMarker {l : Str} (h : NoCore l) : NoCore (subTailMarker l) := by
  obtain ⟨pre, suf, heq, hpre, hsuf⟩ := subTailF_decomp l.length l le_rfl
  have hnpre : NoCore pre := noCore_of_infix hpre.isInfix h
  unfold subTailMarker
  rw [heq]
  rcases hsuf with rfl | rfl
  · simpa using hnpre
  · intro s hs
    rcases List.eq_nil_or_concat s with rfl | ⟨L, x, rfl⟩
    · exact matchCore_nil
    · obtain ⟨u, hu⟩ := hs
      rw [List.concat_eq_append] at hu
      have hflat : (u ++ L) ++ [x] = pre ++ ['\n'] := by
        rw [← hu]
        simp
      have hinj := List.append_inj' hflat rfl
      have hx : x = '\n' := by
        have := hinj.2
        injection this with h1
      subst hx
      by_contra hne
      have h2 : matchCore L ≠ none := by
        apply matchCore_space_junction (c := '\n') (b := []) (by decide)
        simpa [List.concat_eq_append] using hne
      have hLsuf : L <:+ pre := ⟨u, hinj.1⟩
      exact h2 (hnpre L hLsuf)

theorem subHeadClose_suffix (l : Str) : subHeadClose l <:+ l := by
  unfold subHeadClose
  split
  · next r heq =>
    have h3 : ']' :: r <:+ l := heq ▸ List.dropWhile_suffix Char.isDigit
    exact (lstrip_suffix r).trans ((List.suffix_cons ']' r).trans h3)
  · exact List.suffix_rfl

theorem noCore_strip {l : Str} (h : NoCore l) : NoCore (strip l) := by
  have h1 : NoCore (rstrip l) := noCore_of_infix (rstrip_prefix_self l).isInfix h
  intro s hs
  exact h1 s (hs.trans (lstrip_suffix (rstrip l)))

/-- The first substitution pass always fixes the stripper's output. -/
theorem subCleanup_fix (x : Str) :
    subCleanup (strip_task_markers x) = strip_task_markers x := by
  have h1 : NoCore (subCleanup x) := noCore_subCleanupF x.length x le_rfl
  have h2 : NoCore (subTailMarker (subCleanup x)) := noCore_subTailMarker h1
  have h3 : NoCore (subHeadClose (subTailMarker (subCleanup x))) :=
    fun s hs => h2 s (hs.trans (subHeadClose_suffix _))
  have h4 : NoCore (strip_task_markers x) := noCore_strip h3
  exact subCleanupF_id _ _ le_rfl (matchCleanup_eq_none_of_noCore h4)

/-- Counterexample to C3 as stated: `strip_task_markers` is not idempotent.
On `"1]2]abc"` one application yields `"2]abc"` (the anchored
`^\d*\]\s*` pass removes only the first `1]`), a second yields `"abc"`. -/
theorem C3_strip_idempotent_counterexample :
    strip_task_markers (strip_task_markers ("1]2]abc".toList)) ≠
      strip_task_markers ("1]2]abc".toList) := by decide

/-- C3 (amended): `strip_task_markers` is idempotent on every input whose
output is left unchanged by the trailing-partial-marker pass and by the
leading `digits ]` pass — i.e. unless the first application still leaves a
partial marker `[TASK_DONE:` with digits at the end or digits followed by
`]` at the start (the counterexample `"1]2]abc"` is of the latter kind).
The complete-marker pass and the final trim never obstruct idempotence. -/
theorem C3_strip_idempotent_amended (x : Str)
    (h2 : subTailMarker (strip_task_markers x) = strip_task_markers x)
    (h3 : subHeadClose (strip_task_markers x) = strip_task_markers x) :
    strip_task_markers (strip_task_markers x) = strip_task_markers x := by
  have h1 := subCleanup_fix x
  show strip (subHeadClose (subTailMarker (subCleanup (strip_task_markers x)))) = _
  rw [h1, h2, h3]
  exact strip_idem _

/-- Witness for C3's amended statement on a marker-bearing input. -/
theorem C3_strip_idempotent_amended_witness :
    (subTailMarker (strip_task_markers ("see [TASK_DONE:4] done.".toList)) =
        strip_task_markers ("see [TASK_DONE:4] done.".toList) ∧
     subHeadClose (strip_task_markers ("see [TASK_DONE:4] done.".toList)) =
        strip_task_markers ("see [TASK_DONE:4] done.".toList)) ∧
    strip_task_markers (strip_task_markers ("see [TASK_DONE:4] done.".toList)) =
      strip_task_markers ("see [TASK_DONE:4] done.".toList) :=
  ⟨⟨by decide, by decide⟩,
   C3_strip_idempotent_amended ("see [TASK_DONE:4] done.".toList)
     (by decide) (by decide)⟩
